import Mathlib

/-!
Shallow embedding of `src/graph_coloring.py` (module `graph_coloring`).

The Python module has two functions:

* `generate_intersections(reader)` walks the reader's records twice in a
  nested loop, building an insertion-ordered dictionary from city name to
  the list of names of intersecting cities, then returns it reordered from
  most neighbors to least (Python's `sorted` with `reverse=True`, a stable
  descending sort on neighbor-list length).
* `greedy_coloring(neighbors_map, colors)` walks the map in iteration
  order; for each city it shuffles the color list in place, takes the first
  color not already assigned to one of the city's neighbors, and raises
  `Exception(f'Could not find color for {city}')` when no color fits and
  the city is still unassigned.

Records are pairs of a name and an opaque geometry supporting a boolean
`intersects` predicate; we embed the geometry type and the predicate as
parameters.  Python dictionaries preserve insertion order, so both the
adjacency model and the color map are embedded as association lists built
by appending; `random.shuffle` mutates the color list, so the colorer
threads the color-list state and applies an arbitrary caller-supplied
reordering function at each step.  Raising is embedded as `Except.error`
carrying the offending city name.
-/

/-- A shapefile record: a city name and its geometry. -/
structure Record (G : Type) where
  name : String
  geometry : G

/-- Body of the inner `for city2 in reader.records()` loop of
`generate_intersections`: skip `city2` when its name is empty, equals
`city1`'s name, or is already in `city1`'s list; otherwise append its name
when the geometries intersect. -/
def innerStep {G : Type} (inter : G → G → Bool) (c1 : Record G)
    (ns : List String) (c2 : Record G) : List String :=
  if c2.name = "" ∨ c1.name = c2.name ∨ c2.name ∈ ns then ns
  else if inter c1.geometry c2.geometry then ns ++ [c2.name] else ns

/-- The finished neighbor list `intersections[name1]` for one record
`city1`: the inner loop of `generate_intersections` over all records. -/
def innerLoop {G : Type} (inter : G → G → Bool) (rs : List (Record G))
    (c1 : Record G) : List String :=
  rs.foldl (innerStep inter c1) []

/-- Body of the outer `for city1 in reader.records()` loop of
`generate_intersections`: skip `city1` when its name is empty or already a
key, otherwise add the entry `(name1, intersections[name1])`. -/
def outerStep {G : Type} (inter : G → G → Bool) (rs : List (Record G))
    (acc : List (String × List String)) (c1 : Record G) :
    List (String × List String) :=
  if c1.name = "" ∨ c1.name ∈ acc.map Prod.fst then acc
  else acc ++ [(c1.name, innerLoop inter rs c1)]

/-- The `intersections` dictionary of `generate_intersections` before the
final reordering, as an insertion-ordered association list. -/
def buildLists {G : Type} (inter : G → G → Bool) (rs : List (Record G)) :
    List (String × List String) :=
  rs.foldl (outerStep inter rs) []

/-- One step of a stable insertion sort by descending neighbor-list
length: place `x` before the first entry whose list is no longer than
`x`'s, so equal lengths keep their relative order. -/
def insertDesc (x : String × List String) :
    List (String × List String) → List (String × List String)
  | [] => [x]
  | y :: ys => if y.2.length ≤ x.2.length then x :: y :: ys else y :: insertDesc x ys

/-- Stable sort by descending neighbor-list length, the effect of
`sorted(intersections, key=lambda k: len(intersections[k]), reverse=True)`
on the (key, value) pairs. -/
def sortDesc : List (String × List String) → List (String × List String)
  | [] => []
  | x :: xs => insertDesc x (sortDesc xs)

/-- `generate_intersections`: build the adjacency dictionary, then return
it ordered from most neighbors to least (stable on ties). -/
def generate_intersections {G : Type} (inter : G → G → Bool)
    (rs : List (Record G)) : List (String × List String) :=
  sortDesc (buildLists inter rs)

/-- Python dictionary lookup `colormap[k]` (with `k in colormap` as
`isSome`): the value at the first entry whose key is `k`. -/
def lookup? {C : Type} [DecidableEq C] (cm : List (String × C)) (k : String) :
    Option C :=
  (cm.find? (fun p => decide (p.1 = k))).map Prod.snd

/-- Python dictionary assignment `colormap[k] = v`: overwrite the value in
place when the key is present, else append the new entry. -/
def dictSet {C : Type} [DecidableEq C] (cm : List (String × C)) (k : String)
    (v : C) : List (String × C) :=
  if k ∈ cm.map Prod.fst then cm.map (fun p => if p.1 = k then (k, v) else p)
  else cm ++ [(k, v)]

/-- The inner `for neighbor in neighbors` loop of `greedy_coloring`: `c`
conflicts when some neighbor is in the color map with color `c`. -/
def hasConflict {C : Type} [DecidableEq C] (cm : List (String × C))
    (nbrs : List String) (c : C) : Bool :=
  nbrs.any (fun n =>
    match lookup? cm n with
    | some cn => decide (cn = c)
    | none => false)

/-- The loop of `greedy_coloring` over the remaining entries of
`neighbors_map`.  `shuffles i` is the reordering `random.shuffle` performs
at step `i`; it acts on the current color-list state, which is threaded
along as in the Python code (the list is mutated in place).  The first
color of the shuffled list with no conflict is assigned; when none fits
and the city is still missing from the color map, the run fails with that
city's name. -/
def greedyGo {C : Type} [DecidableEq C] (shuffles : Nat → List C → List C) :
    List (String × List String) → Nat → List C → List (String × C) →
    Except String (List (String × C))
  | [], _, _, cm => .ok cm
  | (city, nbrs) :: rest, i, colors, cm =>
    let cs2 := shuffles i colors
    match cs2.find? (fun c => ! hasConflict cm nbrs c) with
    | some c => greedyGo shuffles rest (i + 1) cs2 (dictSet cm city c)
    | none =>
      if (lookup? cm city).isSome then greedyGo shuffles rest (i + 1) cs2 cm
      else .error city

/-- `greedy_coloring(neighbors_map, colors)`: run the loop from an empty
color map. -/
def greedy_coloring {C : Type} [DecidableEq C]
    (shuffles : Nat → List C → List C) (m : List (String × List String))
    (colors : List C) : Except String (List (String × C)) :=
  greedyGo shuffles m 0 colors []

/-- The color-list state after the first `k` steps of a run that starts at
step index `i` with list `colors` (each step applies its shuffle to the
previous state, as the in-place `random.shuffle` does). -/
def paletteFrom {C : Type} (shuffles : Nat → List C → List C) (i : Nat)
    (colors : List C) : Nat → List C
  | 0 => colors
  | k + 1 => shuffles (i + k) (paletteFrom shuffles i colors k)

/-! ### Properties of the inner loop of `generate_intersections` -/

theorem innerStep_cases {G : Type} (inter : G → G → Bool) (c1 : Record G)
    (ns : List String) (c2 : Record G) :
    innerStep inter c1 ns c2 = ns ∨
    (innerStep inter c1 ns c2 = ns ++ [c2.name] ∧ c2.name ≠ "" ∧
      c1.name ≠ c2.name ∧ c2.name ∉ ns ∧ inter c1.geometry c2.geometry = true) := by
  unfold innerStep
  by_cases h : c2.name = "" ∨ c1.name = c2.name ∨ c2.name ∈ ns
  · left; rw [if_pos h]
  · rw [if_neg h]
    push_neg at h
    obtain ⟨h1, h2, h3⟩ := h
    by_cases hi : inter c1.geometry c2.geometry
    · right; rw [if_pos hi]; exact ⟨rfl, h1, h2, h3, hi⟩
    · left; rw [if_neg hi]

theorem mem_foldl_innerStep {G : Type} (inter : G → G → Bool) (c1 : Record G) :
    ∀ (rs : List (Record G)) (ns : List String) (n : String),
      n ∈ rs.foldl (innerStep inter c1) ns →
      n ∈ ns ∨ (n ≠ "" ∧ c1.name ≠ n ∧
        ∃ r ∈ rs, r.name = n ∧ inter c1.geometry r.geometry = true) := by
  intro rs
  induction rs with
  | nil => intro ns n h; exact Or.inl h
  | cons c2 rs ih =>
    intro ns n h
    rw [List.foldl_cons] at h
    rcases ih (innerStep inter c1 ns c2) n h with h' | ⟨h1, h2, r, hr, hrn, hri⟩
    · rcases innerStep_cases inter c1 ns c2 with he | ⟨he, hne, hnc, _, hi⟩
      · rw [he] at h'; exact Or.inl h'
      · rw [he] at h'
        rcases List.mem_append.1 h' with h'' | h''
        · exact Or.inl h''
        · have hn2 : n = c2.name := List.mem_singleton.1 h''
          subst hn2
          exact Or.inr ⟨hne, hnc, c2, List.mem_cons_self _ _, rfl, hi⟩
    · exact Or.inr ⟨h1, h2, r, List.mem_cons_of_mem _ hr, hrn, hri⟩

theorem innerStep_inv {G : Type} (inter : G → G → Bool) (c1 : Record G)
    (ns : List String) (c2 : Record G)
    (h : ns.Nodup ∧ c1.name ∉ ns ∧ "" ∉ ns) :
    (innerStep inter c1 ns c2).Nodup ∧ c1.name ∉ innerStep inter c1 ns c2 ∧
      "" ∉ innerStep inter c1 ns c2 := by
  obtain ⟨hnd, hself, hemp⟩ := h
  rcases innerStep_cases inter c1 ns c2 with he | ⟨he, hne, hnc, hnm, _⟩
  · rw [he]; exact ⟨hnd, hself, hemp⟩
  · rw [he]
    refine ⟨?_, ?_, ?_⟩
    · rw [List.nodup_append]
      exact ⟨hnd, List.nodup_singleton _, List.disjoint_singleton.2 hnm⟩
    · rw [List.mem_append]
      rintro (h' | h')
      · exact hself h'
      · exact hnc (List.mem_singleton.1 h')
    · rw [List.mem_append]
      rintro (h' | h')
      · exact hemp h'
      · exact hne (List.mem_singleton.1 h').symm

theorem foldl_innerStep_inv {G : Type} (inter : G → G → Bool) (c1 : Record G) :
    ∀ (rs : List (Record G)) (ns : List String),
      ns.Nodup ∧ c1.name ∉ ns ∧ "" ∉ ns →
      (rs.foldl (innerStep inter c1) ns).Nodup ∧
        c1.name ∉ rs.foldl (innerStep inter c1) ns ∧
        "" ∉ rs.foldl (innerStep inter c1) ns := by
  intro rs
  induction rs with
  | nil => intro ns h; exact h
  | cons c2 rs ih =>
    intro ns h
    rw [List.foldl_cons]
    exact ih _ (innerStep_inv inter c1 ns c2 h)

theorem innerLoop_nodup {G : Type} (inter : G → G → Bool) (rs : List (Record G))
    (c1 : Record G) :
    (innerLoop inter rs c1).Nodup ∧ c1.name ∉ innerLoop inter rs c1 ∧
      "" ∉ innerLoop inter rs c1 :=
  foldl_innerStep_inv inter c1 rs []
    ⟨List.nodup_nil, List.not_mem_nil _, List.not_mem_nil _⟩

theorem mem_innerLoop {G : Type} (inter : G → G → Bool) (rs : List (Record G))
    (c1 : Record G) (n : String) (h : n ∈ innerLoop inter rs c1) :
    n ≠ "" ∧ c1.name ≠ n ∧
      ∃ r ∈ rs, r.name = n ∧ inter c1.geometry r.geometry = true := by
  rcases mem_foldl_innerStep inter c1 rs [] n h with h' | h'
  · exact absurd h' (List.not_mem_nil n)
  · exact h'

/-! ### Properties of the outer loop of `generate_intersections` -/

theorem outerStep_cases {G : Type} (inter : G → G → Bool) (rs : List (Record G))
    (acc : List (String × List String)) (c1 : Record G) :
    outerStep inter rs acc c1 = acc ∨
    (outerStep inter rs acc c1 = acc ++ [(c1.name, innerLoop inter rs c1)] ∧
      c1.name ≠ "" ∧ c1.name ∉ acc.map Prod.fst) := by
  unfold outerStep
  by_cases h : c1.name = "" ∨ c1.name ∈ acc.map Prod.fst
  · left; rw [if_pos h]
  · rw [if_neg h]
    push_neg at h
    exact Or.inr ⟨rfl, h.1, h.2⟩

theorem mem_foldl_outerStep {G : Type} (inter : G → G → Bool) (rs : List (Record G)) :
    ∀ (rs' : List (Record G)) (acc : List (String × List String))
      (p : String × List String),
      p ∈ rs'.foldl (outerStep inter rs) acc →
      p ∈ acc ∨ (p.1 ≠ "" ∧
        ∃ c1 ∈ rs', c1.name = p.1 ∧ p.2 = innerLoop inter rs c1) := by
  intro rs'
  induction rs' with
  | nil => intro acc p h; exact Or.inl h
  | cons c1 rs' ih =>
    intro acc p h
    rw [List.foldl_cons] at h
    rcases ih (outerStep inter rs acc c1) p h with h' | ⟨h1, c, hc, hcn, hcv⟩
    · rcases outerStep_cases inter rs acc c1 with he | ⟨he, hne, _⟩
      · rw [he] at h'; exact Or.inl h'
      · rw [he] at h'
        rcases List.mem_append.1 h' with h'' | h''
        · exact Or.inl h''
        · have hp : p = (c1.name, innerLoop inter rs c1) := List.mem_singleton.1 h''
          subst hp
          exact Or.inr ⟨hne, c1, List.mem_cons_self _ _, rfl, rfl⟩
    · exact Or.inr ⟨h1, c, List.mem_cons_of_mem _ hc, hcn, hcv⟩

theorem keys_nodup_foldl_outerStep {G : Type} (inter : G → G → Bool)
    (rs : List (Record G)) :
    ∀ (rs' : List (Record G)) (acc : List (String × List String)),
      (acc.map Prod.fst).Nodup →
      ((rs'.foldl (outerStep inter rs) acc).map Prod.fst).Nodup := by
  intro rs'
  induction rs' with
  | nil => intro acc h; exact h
  | cons c1 rs' ih =>
    intro acc h
    rw [List.foldl_cons]
    refine ih _ ?_
    rcases outerStep_cases inter rs acc c1 with he | ⟨he, _, hnm⟩
    · rw [he]; exact h
    · rw [he, List.map_append, List.nodup_append]
      exact ⟨h, List.nodup_singleton _, List.disjoint_singleton.2 hnm⟩

theorem keys_mono_foldl_outerStep {G : Type} (inter : G → G → Bool)
    (rs : List (Record G)) :
    ∀ (rs' : List (Record G)) (acc : List (String × List String)) (k : String),
      k ∈ acc.map Prod.fst →
      k ∈ (rs'.foldl (outerStep inter rs) acc).map Prod.fst := by
  intro rs'
  induction rs' with
  | nil => intro acc k h; exact h
  | cons c1 rs' ih =>
    intro acc k h
    rw [List.foldl_cons]
    refine ih _ k ?_
    rcases outerStep_cases inter rs acc c1 with he | ⟨he, _, _⟩
    · rw [he]; exact h
    · rw [he, List.map_append, List.mem_append]; exact Or.inl h

theorem keys_complete_foldl_outerStep {G : Type} (inter : G → G → Bool)
    (rs : List (Record G)) :
    ∀ (rs' : List (Record G)) (acc : List (String × List String))
      (r : Record G), r ∈ rs' → r.name ≠ "" →
      r.name ∈ (rs'.foldl (outerStep inter rs) acc).map Prod.fst := by
  intro rs'
  induction rs' with
  | nil => intro acc r h _; exact absurd h (List.not_mem_nil r)
  | cons c1 rs' ih =>
    intro acc r h hne
    rcases List.mem_cons.1 h with rfl | h'
    · rw [List.foldl_cons]
      refine keys_mono_foldl_outerStep inter rs rs' _ r.name ?_
      rcases outerStep_cases inter rs acc r with he | ⟨he, _, _⟩
      · rw [he]
        rcases outerStep_cases inter rs acc r with he' | ⟨he', _, _⟩
        · -- the skip branch fired, so the name is empty or already a key
          by_cases hk : r.name ∈ acc.map Prod.fst
          · exact hk
          · exfalso
            have : outerStep inter rs acc r = acc ++ [(r.name, innerLoop inter rs r)] := by
              unfold outerStep
              rw [if_neg (by push_neg; exact ⟨hne, hk⟩)]
            rw [this] at he
            simpa using congrArg List.length he
        · by_cases hk : r.name ∈ acc.map Prod.fst
          · exact hk
          · exfalso
            rw [he'] at he
            simpa using congrArg List.length he
      · rw [he, List.map_append, List.mem_append]
        right
        simp
    · rw [List.foldl_cons]
      exact ih _ r h' hne

theorem keys_foldl_outerStep_sub {G : Type} (inter : G → G → Bool)
    (rs : List (Record G)) (rs' : List (Record G))
    (acc : List (String × List String)) (k : String)
    (h : k ∈ (rs'.foldl (outerStep inter rs) acc).map Prod.fst) :
    k ∈ acc.map Prod.fst ∨ (k ≠ "" ∧ ∃ r ∈ rs', r.name = k) := by
  rcases List.mem_map.1 h with ⟨p, hp, hpk⟩
  rcases mem_foldl_outerStep inter rs rs' acc p hp with h' | ⟨h1, c, hc, hcn, _⟩
  · exact Or.inl (hpk ▸ List.mem_map_of_mem Prod.fst h')
  · subst hpk
    exact Or.inr ⟨h1, c, hc, hcn⟩

/-! ### Properties of the stable descending sort -/

theorem insertDesc_perm (x : String × List String) :
    ∀ l : List (String × List String), (insertDesc x l).Perm (x :: l) := by
  intro l
  induction l with
  | nil => exact List.Perm.refl _
  | cons y ys ih =>
    unfold insertDesc
    by_cases h : y.2.length ≤ x.2.length
    · rw [if_pos h]
    · rw [if_neg h]
      exact (ih.cons y).trans (List.Perm.swap x y ys)

theorem sortDesc_perm : ∀ l : List (String × List String), (sortDesc l).Perm l := by
  intro l
  induction l with
  | nil => exact List.Perm.refl _
  | cons x xs ih =>
    unfold sortDesc
    exact (insertDesc_perm x (sortDesc xs)).trans (ih.cons x)

theorem pairwise_insertDesc (x : String × List String) :
    ∀ l : List (String × List String),
      l.Pairwise (fun a b => b.2.length ≤ a.2.length) →
      (insertDesc x l).Pairwise (fun a b => b.2.length ≤ a.2.length) := by
  intro l
  induction l with
  | nil => intro _; exact List.pairwise_singleton _ x
  | cons y ys ih =>
    intro h
    rw [List.pairwise_cons] at h
    obtain ⟨hy, hys⟩ := h
    unfold insertDesc
    by_cases hle : y.2.length ≤ x.2.length
    · rw [if_pos hle]
      refine List.Pairwise.cons ?_ (List.Pairwise.cons hy hys)
      intro z hz
      rcases List.mem_cons.1 hz with rfl | hz'
      · exact hle
      · exact le_trans (hy z hz') hle
    · rw [if_neg hle]
      refine List.Pairwise.cons ?_ (ih hys)
      intro z hz
      rcases List.mem_cons.1 ((insertDesc_perm x ys).mem_iff.1 hz) with rfl | hz'
      · exact le_of_not_le hle
      · exact hy z hz'

theorem pairwise_sortDesc :
    ∀ l : List (String × List String),
      (sortDesc l).Pairwise (fun a b => b.2.length ≤ a.2.length) := by
  intro l
  induction l with
  | nil => exact List.Pairwise.nil
  | cons x xs ih =>
    unfold sortDesc
    exact pairwise_insertDesc x (sortDesc xs) ih

theorem filter_insertDesc (L : Nat) (x : String × List String) :
    ∀ l : List (String × List String),
      (insertDesc x l).filter (fun p => p.2.length == L) =
        if x.2.length == L then x :: l.filter (fun p => p.2.length == L)
        else l.filter (fun p => p.2.length == L) := by
  intro l
  induction l with
  | nil =>
    unfold insertDesc
    by_cases hx : x.2.length == L
    · rw [if_pos hx]; simp [List.filter_cons, hx]
    · rw [if_neg hx]; simp [List.filter_cons, hx]
  | cons y ys ih =>
    unfold insertDesc
    by_cases hle : y.2.length ≤ x.2.length
    · rw [if_pos hle]
      by_cases hx : x.2.length == L
      · rw [if_pos hx]; simp [List.filter_cons, hx]
      · rw [if_neg hx]; simp [List.filter_cons, hx]
    · rw [if_neg hle]
      by_cases hx : x.2.length == L
      · rw [if_pos hx]
        have hxL : x.2.length = L := by simpa using hx
        have hy : ¬ (y.2.length == L) := by
          have hlt : x.2.length < y.2.length := Nat.lt_of_not_le hle
          simp only [beq_iff_eq]
          omega
        rw [List.filter_cons, List.filter_cons]
        simp only [hy, ite_false, Bool.false_eq_true, if_false]
        rw [ih, if_pos hx]
      · rw [if_neg hx]
        rw [List.filter_cons, List.filter_cons]
        by_cases hy : y.2.length == L
        · simp only [hy, if_true]
          rw [ih, if_neg hx]
        · simp only [hy, Bool.false_eq_true, if_false]
          rw [ih, if_neg hx]

theorem filter_sortDesc (L : Nat) :
    ∀ l : List (String × List String),
      (sortDesc l).filter (fun p => p.2.length == L) =
        l.filter (fun p => p.2.length == L) := by
  intro l
  induction l with
  | nil => rfl
  | cons x xs ih =>
    unfold sortDesc
    rw [filter_insertDesc, ih, List.filter_cons]

/-! ### Claims about `generate_intersections` -/

/-- C3: For every input record collection, the mapping returned by
`generate_intersections` is ordered by non-increasing neighbor-list length,
and entries with equal neighbor-list length appear in their relative
discovery order: for every length `L` the output's entries of length `L`
are exactly the pre-sort dictionary's entries of length `L` in their
original (input enumeration) order. -/
theorem generate_intersections_sorted_stable {G : Type} (inter : G → G → Bool)
    (rs : List (Record G)) :
    (generate_intersections inter rs).Pairwise
      (fun a b => b.2.length ≤ a.2.length) ∧
    ∀ L : Nat,
      (generate_intersections inter rs).filter (fun p => p.2.length == L) =
        (buildLists inter rs).filter (fun p => p.2.length == L) :=
  ⟨pairwise_sortDesc _, fun L => filter_sortDesc L _⟩

/-- C7: In the mapping returned by `generate_intersections`, no region's
neighbor list contains the region's own name, and no neighbor list
contains the same name twice. -/
theorem generate_intersections_no_self_no_dup {G : Type} (inter : G → G → Bool)
    (rs : List (Record G)) (p : String × List String)
    (hp : p ∈ generate_intersections inter rs) : p.1 ∉ p.2 ∧ p.2.Nodup := by
  have hb : p ∈ buildLists inter rs :=
    (sortDesc_perm (buildLists inter rs)).mem_iff.1 hp
  rcases mem_foldl_outerStep inter rs rs [] p hb with h' | ⟨_, c1, _, hcn, hcv⟩
  · exact absurd h' (List.not_mem_nil p)
  · obtain ⟨hnd, hself, _⟩ := innerLoop_nodup inter rs c1
    rw [hcv]
    exact ⟨hcn ▸ hself, hnd⟩

/-- Witness for C7 at a concrete input: two mutually intersecting regions
`A`, `B`; the entry for `A` has neighbor list `["B"]`. -/
theorem generate_intersections_no_self_no_dup_witness :
    ("A" : String) ∉ (["B"] : List String) ∧ (["B"] : List String).Nodup :=
  generate_intersections_no_self_no_dup (fun _ _ : Nat => true)
    [⟨"A", 0⟩, ⟨"B", 1⟩] ("A", ["B"]) (by decide)

/-- C9: A record whose name is the empty string is excluded entirely from
the mapping: the empty name is never a key and never appears in any
neighbor list, for every intersection predicate. -/
theorem generate_intersections_excludes_empty_name {G : Type}
    (inter : G → G → Bool) (rs : List (Record G)) :
    "" ∉ (generate_intersections inter rs).map Prod.fst ∧
    ∀ p ∈ generate_intersections inter rs, "" ∉ p.2 := by
  constructor
  · intro h
    have h' : "" ∈ (buildLists inter rs).map Prod.fst :=
      ((sortDesc_perm (buildLists inter rs)).map Prod.fst).mem_iff.1 h
    rcases keys_foldl_outerStep_sub inter rs rs [] "" h' with h'' | ⟨hne, _⟩
    · simp at h''
    · exact hne rfl
  · intro p hp
    have hb : p ∈ buildLists inter rs :=
      (sortDesc_perm (buildLists inter rs)).mem_iff.1 hp
    rcases mem_foldl_outerStep inter rs rs [] p hb with h' | ⟨_, c1, _, _, hcv⟩
    · exact absurd h' (List.not_mem_nil p)
    · rw [hcv]
      exact (innerLoop_nodup inter rs c1).2.2

/-- C10: The mapping is closed over neighbor names: every name in any
region's neighbor list is itself a key of the returned mapping. -/
theorem generate_intersections_closed {G : Type} (inter : G → G → Bool)
    (rs : List (Record G)) (p : String × List String) (n : String)
    (hp : p ∈ generate_intersections inter rs) (hn : n ∈ p.2) :
    n ∈ (generate_intersections inter rs).map Prod.fst := by
  have hb : p ∈ buildLists inter rs :=
    (sortDesc_perm (buildLists inter rs)).mem_iff.1 hp
  rcases mem_foldl_outerStep inter rs rs [] p hb with h' | ⟨_, c1, _, _, hcv⟩
  · exact absurd h' (List.not_mem_nil p)
  · rw [hcv] at hn
    obtain ⟨hne, _, r, hr, hrn, _⟩ := mem_innerLoop inter rs c1 n hn
    have hk : n ∈ (buildLists inter rs).map Prod.fst := by
      have hkey := keys_complete_foldl_outerStep inter rs rs [] r hr
        (by rw [hrn]; exact hne)
      rwa [hrn] at hkey
    exact ((sortDesc_perm (buildLists inter rs)).map Prod.fst).mem_iff.2 hk

/-- Witness for C10 at a concrete input: `B` appears in `A`'s neighbor
list and is a key of the returned mapping. -/
theorem generate_intersections_closed_witness :
    ("B" : String) ∈ (generate_intersections (fun _ _ : Nat => true)
      [⟨"A", 0⟩, ⟨"B", 1⟩]).map Prod.fst :=
  generate_intersections_closed (fun _ _ : Nat => true) [⟨"A", 0⟩, ⟨"B", 1⟩]
    ("A", ["B"]) "B" (by decide) (by decide)

/-- C6 counterexample: duplicate records are not ignored entirely.  With
records `A` (geometry 0), `B` (geometry 1), and a later duplicate `B`
(geometry 2), where only geometries 0 and 2 intersect, `A`'s neighbor list
contains `B` — the test ran against the duplicate record's geometry.
Removing the duplicate record leaves `A` with no neighbors. -/
theorem generate_intersections_duplicate_geometry_counterexample :
    generate_intersections
        (fun x y : Nat => (x == 0 && y == 2) || (x == 2 && y == 0))
        [⟨"A", 0⟩, ⟨"B", 1⟩, ⟨"B", 2⟩] = [("A", ["B"]), ("B", [])] ∧
    generate_intersections
        (fun x y : Nat => (x == 0 && y == 2) || (x == 2 && y == 0))
        [⟨"A", 0⟩, ⟨"B", 1⟩] = [("A", []), ("B", [])] :=
  ⟨rfl, rfl⟩

/-- C6 amended: only the first occurrence of each distinct non-empty name
produces a key (keys are exactly the distinct non-empty record names, each
once), but the inner neighbor scan tests every record of the input,
including later records that duplicate an already-processed name: each
neighbor entry is justified by the geometry of some record bearing that
name, not necessarily the first. -/
theorem generate_intersections_dedup_keys {G : Type} (inter : G → G → Bool)
    (rs : List (Record G)) :
    ((generate_intersections inter rs).map Prod.fst).Nodup ∧
    (∀ n : String, n ∈ (generate_intersections inter rs).map Prod.fst ↔
      (n ≠ "" ∧ ∃ r ∈ rs, r.name = n)) ∧
    (∀ p ∈ generate_intersections inter rs, ∀ n ∈ p.2,
      ∃ r ∈ rs, r.name = n ∧ ∃ r1 ∈ rs, r1.name = p.1 ∧
        inter r1.geometry r.geometry = true) := by
  refine ⟨?_, ?_, ?_⟩
  · have hb : ((buildLists inter rs).map Prod.fst).Nodup :=
      keys_nodup_foldl_outerStep inter rs rs [] List.nodup_nil
    exact ((sortDesc_perm (buildLists inter rs)).map Prod.fst).nodup_iff.2 hb
  · intro n
    constructor
    · intro h
      have h' : n ∈ (buildLists inter rs).map Prod.fst :=
        ((sortDesc_perm (buildLists inter rs)).map Prod.fst).mem_iff.1 h
      rcases keys_foldl_outerStep_sub inter rs rs [] n h' with h'' | h''
      · simp at h''
      · exact h''
    · rintro ⟨hne, r, hr, hrn⟩
      have hk := keys_complete_foldl_outerStep inter rs rs [] r hr
        (by rw [hrn]; exact hne)
      rw [hrn] at hk
      exact ((sortDesc_perm (buildLists inter rs)).map Prod.fst).mem_iff.2 hk
  · intro p hp n hn
    have hb : p ∈ buildLists inter rs :=
      (sortDesc_perm (buildLists inter rs)).mem_iff.1 hp
    rcases mem_foldl_outerStep inter rs rs [] p hb with h' | ⟨_, c1, hc1, hcn, hcv⟩
    · exact absurd h' (List.not_mem_nil p)
    · rw [hcv] at hn
      obtain ⟨_, _, r, hr, hrn, hri⟩ := mem_innerLoop inter rs c1 n hn
      exact ⟨r, hr, hrn, c1, hc1, hcn, hri⟩

/-- C8: `generate_intersections` on an empty record collection returns the
empty mapping, and `greedy_coloring` on an empty adjacency model returns
the empty assignment for every palette (including the empty one), without
raising. -/
theorem empty_records_empty_model_empty_coloring :
    (∀ {G : Type} (inter : G → G → Bool),
      generate_intersections inter ([] : List (Record G)) = []) ∧
    (∀ {C : Type} [DecidableEq C] (shuffles : Nat → List C → List C)
      (colors : List C),
      greedy_coloring shuffles [] colors = .ok []) :=
  ⟨fun _ => rfl, fun _ _ => rfl⟩


/-! ### Properties of the color-map dictionary operations -/

theorem lookup?_eq_none_iff {C : Type} [DecidableEq C]
    (cm : List (String × C)) (k : String) :
    lookup? cm k = none ↔ k ∉ cm.map Prod.fst := by
  unfold lookup?
  rw [Option.map_eq_none', List.find?_eq_none]
  constructor
  · intro h hk
    rcases List.mem_map.1 hk with ⟨p, hp, hpk⟩
    have := h p hp
    simp [hpk] at this
  · intro hk p hp
    simp only [decide_eq_true_eq]
    intro hpk
    exact hk (List.mem_map.2 ⟨p, hp, hpk⟩)

theorem lookup?_isSome_iff {C : Type} [DecidableEq C]
    (cm : List (String × C)) (k : String) :
    (lookup? cm k).isSome = true ↔ k ∈ cm.map Prod.fst := by
  constructor
  · intro h
    by_contra hk
    rw [(lookup?_eq_none_iff cm k).2 hk] at h
    simp at h
  · intro hk
    rcases Option.eq_none_or_eq_some (lookup? cm k) with h | ⟨v, h⟩
    · exact absurd ((lookup?_eq_none_iff cm k).1 h) (fun h' => h' hk)
    · rw [h]; rfl

theorem lookup?_append {C : Type} [DecidableEq C]
    (l1 l2 : List (String × C)) (k : String) :
    lookup? (l1 ++ l2) k = (lookup? l1 k).or (lookup? l2 k) := by
  unfold lookup?
  rw [List.find?_append]
  cases l1.find? (fun p => decide (p.1 = k)) <;> rfl

theorem lookup?_append_of_mem {C : Type} [DecidableEq C]
    (l1 l2 : List (String × C)) (k : String) (h : k ∈ l1.map Prod.fst) :
    lookup? (l1 ++ l2) k = lookup? l1 k := by
  rw [lookup?_append]
  rcases Option.isSome_iff_exists.1 ((lookup?_isSome_iff l1 k).2 h) with ⟨v, hv⟩
  rw [hv]; rfl

theorem lookup?_append_of_not_mem {C : Type} [DecidableEq C]
    (l1 l2 : List (String × C)) (k : String) (h : k ∉ l1.map Prod.fst) :
    lookup? (l1 ++ l2) k = lookup? l2 k := by
  rw [lookup?_append, (lookup?_eq_none_iff l1 k).2 h]
  cases lookup? l2 k <;> rfl

theorem lookup?_singleton_self {C : Type} [DecidableEq C] (k : String) (v : C) :
    lookup? [(k, v)] k = some v := by
  simp [lookup?]

theorem dictSet_of_not_mem {C : Type} [DecidableEq C]
    (cm : List (String × C)) (k : String) (v : C) (h : k ∉ cm.map Prod.fst) :
    dictSet cm k v = cm ++ [(k, v)] := by
  unfold dictSet
  rw [if_neg h]

theorem hasConflict_eq_false_iff {C : Type} [DecidableEq C]
    (cm : List (String × C)) (nbrs : List String) (c : C) :
    hasConflict cm nbrs c = false ↔
      ∀ n ∈ nbrs, ∀ cn, lookup? cm n = some cn → cn ≠ c := by
  unfold hasConflict
  rw [← Bool.not_eq_true, List.any_eq_true]
  push_neg
  constructor
  · intro h n hn cn hcn
    have := h n hn
    rw [hcn] at this
    simpa using this
  · intro h n hn
    cases hcn : lookup? cm n with
    | none => simp
    | some cn => simpa using h n hn cn hcn

theorem hasConflict_eq_true_iff {C : Type} [DecidableEq C]
    (cm : List (String × C)) (nbrs : List String) (c : C) :
    hasConflict cm nbrs c = true ↔
      ∃ n ∈ nbrs, lookup? cm n = some c := by
  unfold hasConflict
  rw [List.any_eq_true]
  constructor
  · rintro ⟨n, hn, hp⟩
    refine ⟨n, hn, ?_⟩
    cases hcn : lookup? cm n with
    | none => rw [hcn] at hp; simp at hp
    | some cn =>
      rw [hcn] at hp
      simp only [decide_eq_true_eq] at hp
      rw [hp]
  · rintro ⟨n, hn, hcn⟩
    exact ⟨n, hn, by rw [hcn]; simp⟩

theorem greedyGo_cons {C : Type} [DecidableEq C]
    (shuffles : Nat → List C → List C) (city : String) (nbrs : List String)
    (rest : List (String × List String)) (i : Nat) (colors : List C)
    (cm : List (String × C)) :
    greedyGo shuffles ((city, nbrs) :: rest) i colors cm =
      match (shuffles i colors).find? (fun c => ! hasConflict cm nbrs c) with
      | some c =>
        greedyGo shuffles rest (i + 1) (shuffles i colors) (dictSet cm city c)
      | none =>
        if (lookup? cm city).isSome then
          greedyGo shuffles rest (i + 1) (shuffles i colors) cm
        else .error city := rfl

theorem greedyGo_ok_sound {C : Type} [DecidableEq C]
    (shuffles : Nat → List C → List C) :
    ∀ (m : List (String × List String)) (cm : List (String × C))
      (colors : List C) (i : Nat) (cm' : List (String × C)),
      (cm.map Prod.fst ++ m.map Prod.fst).Nodup →
      greedyGo shuffles m i colors cm = .ok cm' →
      (∀ k, k ∈ cm.map Prod.fst → lookup? cm' k = lookup? cm k) ∧
      (∀ j (hj : j < m.length),
        ∃ c, lookup? cm' (m.get ⟨j, hj⟩).1 = some c ∧
          ∀ n ∈ (m.get ⟨j, hj⟩).2,
            (n ∈ cm.map Prod.fst ∨ n ∈ (m.take j).map Prod.fst) →
            ∀ cn, lookup? cm' n = some cn → c ≠ cn) := by
  intro m
  induction m with
  | nil =>
    intro cm colors i cm' hnd h
    have hcm : cm = cm' := Except.ok.inj h
    subst hcm
    exact ⟨fun k _ => rfl, fun j hj => absurd hj (by simp)⟩
  | cons entry rest ih =>
    obtain ⟨city, nbrs⟩ := entry
    intro cm colors i cm' hnd h
    -- the head city is not already a key of the color map
    have hkeys : (cm.map Prod.fst ++ city :: rest.map Prod.fst).Nodup := by
      simpa using hnd
    have hcity_cm : city ∉ cm.map Prod.fst := by
      rcases List.nodup_append.1 hkeys with ⟨_, _, hdisj⟩
      intro hc
      exact hdisj hc (List.mem_cons_self _ _)
    rw [greedyGo_cons] at h
    cases hfind : (shuffles i colors).find? (fun c => ! hasConflict cm nbrs c) with
    | none =>
      rw [hfind] at h
      have h2 : (if (lookup? cm city).isSome then
          greedyGo shuffles rest (i + 1) (shuffles i colors) cm
        else (.error city : Except String (List (String × C)))) = .ok cm' := h
      rw [if_neg (by
        intro hs
        exact hcity_cm ((lookup?_isSome_iff cm city).1 hs))] at h2
      exact absurd h2 (by simp)
    | some c =>
      rw [hfind] at h
      have h2 : greedyGo shuffles rest (i + 1) (shuffles i colors)
          (dictSet cm city c) = .ok cm' := h
      rw [dictSet_of_not_mem cm city c hcity_cm] at h2
      have hnd2 : ((cm ++ [(city, c)]).map Prod.fst ++ rest.map Prod.fst).Nodup := by
        rw [List.map_append]
        simpa [List.append_assoc] using hkeys
      obtain ⟨pres, sound⟩ := ih (cm ++ [(city, c)]) (shuffles i colors) (i + 1) cm' hnd2 h2
      -- the chosen color has no conflict with already-colored neighbors
      have hnoc : ∀ n ∈ nbrs, ∀ cn, lookup? cm n = some cn → cn ≠ c := by
        have hpc := List.find?_some hfind
        rw [Bool.not_eq_eq_eq_not, Bool.not_true] at hpc
        exact (hasConflict_eq_false_iff cm nbrs c).1 hpc
      have pres_cm : ∀ k, k ∈ cm.map Prod.fst → lookup? cm' k = lookup? cm k := by
        intro k hk
        have h1 : lookup? cm' k = lookup? (cm ++ [(city, c)]) k :=
          pres k (by rw [List.map_append, List.mem_append]; exact Or.inl hk)
        rw [h1, lookup?_append_of_mem cm [(city, c)] k hk]
      have hcity' : lookup? cm' city = some c := by
        have h1 : lookup? cm' city = lookup? (cm ++ [(city, c)]) city :=
          pres city (by rw [List.map_append, List.mem_append]; right; simp)
        rw [h1, lookup?_append_of_not_mem cm [(city, c)] city hcity_cm,
          lookup?_singleton_self]
      refine ⟨pres_cm, ?_⟩
      intro j hj
      cases j with
      | zero =>
        refine ⟨c, hcity', ?_⟩
        intro n hn hmem cn hcn
        have hnc : n ∈ cm.map Prod.fst := by
          rcases hmem with h' | h'
          · exact h'
          · simp at h'
        have : lookup? cm n = some cn := by rw [← pres_cm n hnc]; exact hcn
        exact fun hcc => (hnoc n hn cn this) (hcc ▸ rfl)
      | succ j' =>
        have hj' : j' < rest.length := Nat.lt_of_succ_lt_succ hj
        obtain ⟨c', hc', hns⟩ := sound j' hj'
        refine ⟨c', hc', ?_⟩
        intro n hn hmem cn hcn
        refine hns n hn ?_ cn hcn
        rcases hmem with h' | h'
        · left
          rw [List.map_append, List.mem_append]
          exact Or.inl h'
        · rw [List.take_succ_cons, List.map_cons, List.mem_cons] at h'
          rcases h' with rfl | h'
          · left
            rw [List.map_append, List.mem_append]
            right; simp
          · exact Or.inr h'

/-! ### Claims about `greedy_coloring` -/

/-- C2: Whenever `greedy_coloring` returns successfully on an adjacency
model (a mapping, so with distinct keys), the assignment is conflict-free
with respect to processing order: for every region and every neighbor of
it that occurs earlier in the model's iteration order, the two assigned
colors differ — for every shuffle sequence, hence on every successful
run. -/
theorem greedy_coloring_ok_conflict_free {C : Type} [DecidableEq C]
    (shuffles : Nat → List C → List C) (m : List (String × List String))
    (colors : List C) (cm' : List (String × C))
    (hnd : (m.map Prod.fst).Nodup)
    (h : greedy_coloring shuffles m colors = .ok cm')
    (i j : Nat) (hij : i < j) (hj : j < m.length)
    (hmem : (m.get ⟨i, Nat.lt_trans hij hj⟩).1 ∈ (m.get ⟨j, hj⟩).2) :
    ∃ ci cj, lookup? cm' (m.get ⟨i, Nat.lt_trans hij hj⟩).1 = some ci ∧
      lookup? cm' (m.get ⟨j, hj⟩).1 = some cj ∧ cj ≠ ci := by
  have hnd' : (([] : List (String × C)).map Prod.fst ++ m.map Prod.fst).Nodup := by
    simpa using hnd
  obtain ⟨_, sound⟩ := greedyGo_ok_sound shuffles m [] colors 0 cm' hnd' h
  obtain ⟨cj, hcj, hns⟩ := sound j hj
  obtain ⟨ci, hci, _⟩ := sound i (Nat.lt_trans hij hj)
  refine ⟨ci, cj, hci, hcj, ?_⟩
  refine hns (m.get ⟨i, Nat.lt_trans hij hj⟩).1 hmem (Or.inr ?_) ci hci
  have hlen : i < (m.take j).length := by
    rw [List.length_take]
    omega
  have hget : (m.take j).get ⟨i, hlen⟩ = m.get ⟨i, Nat.lt_trans hij hj⟩ := by
    simp [List.get_eq_getElem, List.getElem_take]
  refine List.mem_map.2 ⟨(m.take j).get ⟨i, hlen⟩, List.get_mem (m.take j) i hlen, ?_⟩
  rw [hget]

/-- Witness for C2 at a concrete input: model `A` (no neighbors) then `B`
(neighbor `A`), identity shuffles, palette `[0, 1]`; the run returns
`[("A", 0), ("B", 1)]` and the two colors differ. -/
theorem greedy_coloring_ok_conflict_free_witness :
    ∃ ci cj : Nat, lookup? [("A", 0), ("B", 1)] "A" = some ci ∧
      lookup? [("A", 0), ("B", 1)] "B" = some cj ∧ cj ≠ ci :=
  greedy_coloring_ok_conflict_free (fun _ cs => cs) [("A", []), ("B", ["A"])]
    [0, 1] [("A", 0), ("B", 1)] (by decide) (by rfl) 0 1 (by decide) (by decide)
    (by decide)

theorem greedyGo_total {C : Type} [DecidableEq C]
    (shuffles : Nat → List C → List C)
    (hsh : ∀ i cs, (shuffles i cs).Perm cs) :
    ∀ (m : List (String × List String)) (colors : List C)
      (cm : List (String × C)) (i : Nat),
      colors.Nodup → (∀ p ∈ m, p.2.length < colors.length) →
      ∃ cm', greedyGo shuffles m i colors cm = .ok cm' := by
  intro m
  induction m with
  | nil => intro colors cm i _ _; exact ⟨cm, rfl⟩
  | cons entry rest ih =>
    obtain ⟨city, nbrs⟩ := entry
    intro colors cm i hndc hlen
    have hperm := hsh i colors
    have hnd2 : (shuffles i colors).Nodup := hperm.nodup_iff.2 hndc
    have hlen2 : (shuffles i colors).length = colors.length := hperm.length_eq
    have hex : ∃ c ∈ shuffles i colors, (! hasConflict cm nbrs c) = true := by
      by_contra hno
      push_neg at hno
      have hsub : shuffles i colors ⊆ nbrs.filterMap (lookup? cm) := by
        intro c hc
        have hne := hno c hc
        have hct : hasConflict cm nbrs c = true := by
          cases hcc : hasConflict cm nbrs c
          · rw [hcc] at hne; simp at hne
          · rfl
        obtain ⟨n, hn, hcn⟩ := (hasConflict_eq_true_iff cm nbrs c).1 hct
        exact List.mem_filterMap.2 ⟨n, hn, hcn⟩
      have hle : (shuffles i colors).length ≤
          (nbrs.filterMap (lookup? cm)).length :=
        (List.subperm_of_subset hnd2 hsub).length_le
      have hle2 : (nbrs.filterMap (lookup? cm)).length ≤ nbrs.length :=
        List.length_filterMap_le _ _
      have hcl : nbrs.length < colors.length :=
        hlen (city, nbrs) (List.mem_cons_self _ _)
      omega
    obtain ⟨c, hcmem, hcp⟩ := hex
    have hfind : ∃ c', (shuffles i colors).find?
        (fun c => ! hasConflict cm nbrs c) = some c' := by
      cases hf : (shuffles i colors).find? (fun c => ! hasConflict cm nbrs c) with
      | none => exact absurd hcp (List.find?_eq_none.1 hf c hcmem)
      | some c' => exact ⟨c', rfl⟩
    obtain ⟨c', hf⟩ := hfind
    obtain ⟨cm', hcm'⟩ := ih (shuffles i colors) (dictSet cm city c') (i + 1)
      hnd2 (fun p hp => hlen2 ▸ hlen p (List.mem_cons_of_mem _ hp))
    refine ⟨cm', ?_⟩
    rw [greedyGo_cons, hf]
    exact hcm'

/-- C1: For every adjacency model and every palette of distinct colors
whose size exceeds every entry's neighbor-list length (in particular any
palette of size at least the maximum neighbor-list length plus one),
`greedy_coloring` succeeds — returns an assignment, raising no error —
regardless of how the palette is shuffled at each step. -/
theorem greedy_coloring_total {C : Type} [DecidableEq C]
    (shuffles : Nat → List C → List C)
    (hsh : ∀ i cs, (shuffles i cs).Perm cs)
    (m : List (String × List String)) (colors : List C)
    (hndc : colors.Nodup)
    (hlen : ∀ p ∈ m, p.2.length < colors.length) :
    ∃ cm', greedy_coloring shuffles m colors = .ok cm' :=
  greedyGo_total shuffles hsh m colors [] 0 hndc hlen

/-- Witness for C1 at a concrete input: model with maximum neighbor-list
length 1 and a palette of 2 distinct colors. -/
theorem greedy_coloring_total_witness :
    ∃ cm', greedy_coloring (fun _ cs => cs) [("A", ["B"]), ("B", [])]
      [0, 1] = .ok cm' :=
  greedy_coloring_total (fun _ cs => cs) (fun _ cs => List.Perm.refl cs)
    [("A", ["B"]), ("B", [])] [0, 1] (by decide) (by decide)

theorem paletteFrom_succ_shift {C : Type} (shuffles : Nat → List C → List C)
    (i : Nat) (colors : List C) :
    ∀ k, paletteFrom shuffles i colors (k + 1) =
      paletteFrom shuffles (i + 1) (shuffles i colors) k := by
  intro k
  induction k with
  | zero => simp [paletteFrom]
  | succ k ihk =>
    have harith : i + (k + 1) = (i + 1) + k := by omega
    calc paletteFrom shuffles i colors (k + 1 + 1)
        = shuffles (i + (k + 1)) (paletteFrom shuffles i colors (k + 1)) := rfl
      _ = shuffles ((i + 1) + k) (paletteFrom shuffles (i + 1) (shuffles i colors) k) := by
          rw [harith, ihk]
      _ = paletteFrom shuffles (i + 1) (shuffles i colors) (k + 1) := rfl

theorem greedyGo_error_iff {C : Type} [DecidableEq C]
    (shuffles : Nat → List C → List C) :
    ∀ (m : List (String × List String)) (colors : List C)
      (cm : List (String × C)) (i : Nat) (name : String),
      greedyGo shuffles m i colors cm = .error name ↔
      ∃ j, ∃ hj : j < m.length, ∃ cmj : List (String × C),
        greedyGo shuffles (m.take j) i colors cm = .ok cmj ∧
        (m.get ⟨j, hj⟩).1 = name ∧ lookup? cmj name = none ∧
        ∀ c ∈ paletteFrom shuffles i colors (j + 1),
          hasConflict cmj (m.get ⟨j, hj⟩).2 c = true := by
  intro m
  induction m with
  | nil =>
    intro colors cm i name
    constructor
    · intro h; exact absurd h (by simp [greedyGo])
    · rintro ⟨j, hj, _⟩; exact absurd hj (by simp)
  | cons entry rest ih =>
    obtain ⟨city, nbrs⟩ := entry
    intro colors cm i name
    cases hfind : (shuffles i colors).find? (fun c => ! hasConflict cm nbrs c) with
    | some c =>
      constructor
      · intro h
        rw [greedyGo_cons, hfind] at h
        have h2 : greedyGo shuffles rest (i + 1) (shuffles i colors)
            (dictSet cm city c) = .error name := h
        obtain ⟨j, hj, cmj, hrun, hname, hlook, hall⟩ :=
          (ih (shuffles i colors) (dictSet cm city c) (i + 1) name).1 h2
        refine ⟨j + 1, Nat.succ_lt_succ hj, cmj, ?_, hname, hlook, ?_⟩
        · rw [List.take_succ_cons, greedyGo_cons, hfind]
          exact hrun
        · rw [paletteFrom_succ_shift]
          exact hall
      · rintro ⟨j, hj, cmj, hrun, hname, hlook, hall⟩
        cases j with
        | zero =>
          have hcm : cm = cmj := Except.ok.inj hrun
          subst hcm
          have hcmem : c ∈ paletteFrom shuffles i colors 1 :=
            List.mem_of_find?_eq_some hfind
          have hcon : hasConflict cm nbrs c = true := hall c hcmem
          have hpc := List.find?_some hfind
          rw [Bool.not_eq_eq_eq_not, Bool.not_true] at hpc
          rw [hpc] at hcon
          exact absurd hcon (by simp)
        | succ j' =>
          have h2 : greedyGo shuffles ((city, nbrs) :: rest.take j') i colors cm
              = .ok cmj := by
            rw [← List.take_succ_cons]
            exact hrun
          rw [greedyGo_cons, hfind] at h2
          have h3 : greedyGo shuffles (rest.take j') (i + 1) (shuffles i colors)
              (dictSet cm city c) = .ok cmj := h2
          rw [greedyGo_cons, hfind]
          show greedyGo shuffles rest (i + 1) (shuffles i colors)
              (dictSet cm city c) = .error name
          refine (ih (shuffles i colors) (dictSet cm city c) (i + 1) name).2
            ⟨j', Nat.lt_of_succ_lt_succ hj, cmj, h3, hname, hlook, ?_⟩
          rw [← paletteFrom_succ_shift]
          exact hall
    | none =>
      by_cases hsome : (lookup? cm city).isSome = true
      · constructor
        · intro h
          rw [greedyGo_cons, hfind] at h
          have h2 : (if (lookup? cm city).isSome then
              greedyGo shuffles rest (i + 1) (shuffles i colors) cm
            else (.error city : Except String (List (String × C)))) = .error name := h
          rw [if_pos hsome] at h2
          obtain ⟨j, hj, cmj, hrun, hname, hlook, hall⟩ :=
            (ih (shuffles i colors) cm (i + 1) name).1 h2
          refine ⟨j + 1, Nat.succ_lt_succ hj, cmj, ?_, hname, hlook, ?_⟩
          · rw [List.take_succ_cons, greedyGo_cons, hfind]
            show (if (lookup? cm city).isSome then
                greedyGo shuffles (rest.take j) (i + 1) (shuffles i colors) cm
              else (.error city : Except String (List (String × C)))) = .ok cmj
            rw [if_pos hsome]
            exact hrun
          · rw [paletteFrom_succ_shift]
            exact hall
        · rintro ⟨j, hj, cmj, hrun, hname, hlook, hall⟩
          cases j with
          | zero =>
            have hcm : cm = cmj := Except.ok.inj hrun
            subst hcm
            have hname0 : city = name := hname
            rw [← hname0] at hlook
            rw [hlook] at hsome
            simp at hsome
          | succ j' =>
            have h2 : greedyGo shuffles ((city, nbrs) :: rest.take j') i colors cm
                = .ok cmj := by
              rw [← List.take_succ_cons]
              exact hrun
            rw [greedyGo_cons, hfind] at h2
            have h3 : (if (lookup? cm city).isSome then
                greedyGo shuffles (rest.take j') (i + 1) (shuffles i colors) cm
              else (.error city : Except String (List (String × C)))) = .ok cmj := h2
            rw [if_pos hsome] at h3
            rw [greedyGo_cons, hfind]
            show (if (lookup? cm city).isSome then
                greedyGo shuffles rest (i + 1) (shuffles i colors) cm
              else (.error city : Except String (List (String × C)))) = .error name
            rw [if_pos hsome]
            refine (ih (shuffles i colors) cm (i + 1) name).2
              ⟨j', Nat.lt_of_succ_lt_succ hj, cmj, h3, hname, hlook, ?_⟩
            rw [← paletteFrom_succ_shift]
            exact hall
      · constructor
        · intro h
          rw [greedyGo_cons, hfind] at h
          have h2 : (if (lookup? cm city).isSome then
              greedyGo shuffles rest (i + 1) (shuffles i colors) cm
            else (.error city : Except String (List (String × C)))) = .error name := h
          rw [if_neg hsome] at h2
          have hcity : city = name := Except.error.inj h2
          subst hcity
          refine ⟨0, Nat.succ_pos _, cm, rfl, rfl, ?_, ?_⟩
          · rw [lookup?_eq_none_iff]
            intro hk
            exact hsome ((lookup?_isSome_iff cm city).2 hk)
          · intro c hc
            have hc' : c ∈ shuffles i colors := hc
            have hnc := List.find?_eq_none.1 hfind c hc'
            show hasConflict cm nbrs c = true
            cases hcc : hasConflict cm nbrs c
            · simp [hcc] at hnc
            · rfl
        · rintro ⟨j, hj, cmj, hrun, hname, hlook, hall⟩
          rw [greedyGo_cons, hfind]
          show (if (lookup? cm city).isSome then
              greedyGo shuffles rest (i + 1) (shuffles i colors) cm
            else (.error city : Except String (List (String × C)))) = .error name
          rw [if_neg hsome]
          cases j with
          | zero =>
            have hname0 : city = name := hname
            rw [hname0]
          | succ j' =>
            have h2 : greedyGo shuffles ((city, nbrs) :: rest.take j') i colors cm
                = .ok cmj := by
              rw [← List.take_succ_cons]
              exact hrun
            rw [greedyGo_cons, hfind] at h2
            have h3 : (if (lookup? cm city).isSome then
                greedyGo shuffles (rest.take j') (i + 1) (shuffles i colors) cm
              else (.error city : Except String (List (String × C)))) = .ok cmj := h2
            rw [if_neg hsome] at h3
            exact absurd h3 (by simp)

/-- C4: `greedy_coloring` raises an error if and only if some region, at
its turn in the model's iteration order, is still unassigned and has every
color of the then-current palette already assigned to one of its
neighbors; the run on the preceding prefix succeeds (the error is raised
immediately at that region's turn), the error carries that region's name,
and — the result being `Except.error` — no assignment mapping is
returned. -/
theorem greedy_coloring_error_iff {C : Type} [DecidableEq C]
    (shuffles : Nat → List C → List C) (m : List (String × List String))
    (colors : List C) (name : String) :
    greedy_coloring shuffles m colors = .error name ↔
    ∃ j, ∃ hj : j < m.length, ∃ cmj : List (String × C),
      greedy_coloring shuffles (m.take j) colors = .ok cmj ∧
      (m.get ⟨j, hj⟩).1 = name ∧ lookup? cmj name = none ∧
      ∀ c ∈ paletteFrom shuffles 0 colors (j + 1),
        hasConflict cmj (m.get ⟨j, hj⟩).2 c = true :=
  greedyGo_error_iff shuffles m colors [] 0 name

/-- C5 counterexample: calling `greedy_coloring` with the empty palette on
the empty adjacency model raises no error at all — it returns the empty
assignment — so no malformed-input error is raised for every model. -/
theorem greedy_coloring_empty_palette_counterexample :
    greedy_coloring (fun _ cs => cs) ([] : List (String × List String))
      ([] : List Nat) = .ok [] := rfl

/-- C5 amended: `greedy_coloring` performs no structural validation of the
palette and has no malformed-input error distinct from the
coloring-infeasible one.  With an empty palette it returns the empty
assignment on the empty model, and on a nonempty model it raises the
ordinary coloring-infeasible error naming the first region in iteration
order. -/
theorem greedy_coloring_empty_palette {C : Type} [DecidableEq C]
    (shuffles : Nat → List C → List C)
    (hsh : ∀ i, shuffles i ([] : List C) = [])
    (m : List (String × List String)) :
    greedy_coloring shuffles m ([] : List C) =
      match m with
      | [] => .ok []
      | (city, _) :: _ => .error city := by
  cases m with
  | nil => rfl
  | cons entry rest =>
    obtain ⟨city, nbrs⟩ := entry
    show greedyGo shuffles ((city, nbrs) :: rest) 0 [] [] = .error city
    rw [greedyGo_cons, hsh 0]
    rfl

/-- Witness for C5's amended claim at a concrete input: one region,
empty palette, identity shuffles. -/
theorem greedy_coloring_empty_palette_witness :
    greedy_coloring (fun _ cs => cs) [("A", ["B"])] ([] : List Nat) =
      .error "A" :=
  greedy_coloring_empty_palette (fun _ cs => cs) (fun _ => rfl) [("A", ["B"])]
